import Mathlib

/-!
Shallow embedding of the pfhs (Pipelined Fast-HotStuff) consensus core:
certificate algebra (`QC`, `AggQC`, `QuorumCertificate`), the signed-message
layer, and the endpoint state machine, translated from the Rust sources
`certificates.rs`, `message.rs`, `crypto.rs`, `block.rs`, `endpoint.rs`.

Modelling conventions:
- Cryptographic handles (`PublicKey`, `Signature`, `PrivateKey`) are opaque
  values modelled as `Nat`; the BLS library operations used by the code
  (`verify_messages`, `aggregate`, `sign`, byte encodings) are bundled in a
  `BLS` record and passed explicitly, since the code treats them as an
  external primitive.
- `IndexSet` is an insertion-ordered set; it is modelled as a `List` (the
  code only uses length, iteration order and membership).
- Rust panics (`unwrap` / `expect`) are modelled with `Option`: `none` is a
  panic.
- Byte strings are `List Nat`; borsh encodings are spelled out structurally
  (enum tag byte, little-endian u64, u32 length prefixes for vectors).
-/

set_option maxRecDepth 100000

namespace PFHS

abbrev Bytes := List Nat

abbrev PublicKey := Nat

abbrev Signature := Nat

abbrev PrivateKey := Nat

/-- The BLS primitives used by the code, as an abstract oracle record.
`aggregate` returns `none` where `bls_signatures::aggregate` errors. -/
structure BLS where
  verify_messages : Signature → List Bytes → List PublicKey → Bool
  aggregate : List Signature → Option Signature
  pk_bytes : PublicKey → Bytes
  sig_bytes : Signature → Bytes
  sign : PrivateKey → Bytes → Signature
  public_key : PrivateKey → PublicKey

/-- Little-endian 8-byte borsh encoding of a u64. -/
def u64LE (n : Nat) : Bytes :=
  (List.range 8).map (fun i => n / 256 ^ i % 256)

/-- Little-endian 4-byte borsh encoding of a u32 (vector length prefix). -/
def u32LE (n : Nat) : Bytes :=
  (List.range 4).map (fun i => n / 256 ^ i % 256)

/-- Borsh encoding of a `Vec<u8>`: u32 length prefix then the bytes. -/
def borshByteVec (bs : Bytes) : Bytes := u32LE bs.length ++ bs

/-- Rust `Vote { view, blockhash }` from `message.rs`. -/
structure Vote where
  view : Nat
  blockhash : Signature
deriving DecidableEq

/-- Rust `QC` from `certificates.rs`: happy certificate. -/
structure QC where
  vote : Vote
  aggregated_signature : Signature
  signers : List PublicKey
  signature : Signature
  producer : PublicKey
deriving DecidableEq

/-- Rust `AggQC` from `certificates.rs`: sad certificate. -/
structure AggQC where
  qcs : List QC
  aggregated_signature : Signature
  signers : List PublicKey
  signature : Signature
  producer : PublicKey
deriving DecidableEq

/-- Rust `QuorumCertificate` tagged union from `certificates.rs`. -/
inductive QuorumCertificate where
  | Happy (qc : QC)
  | Sad (aggqc : AggQC)
  | Genesis
deriving DecidableEq

/-- Rust `NewView { view, certificate }` from `message.rs`. -/
structure NewView where
  view : Nat
  certificate : QuorumCertificate
deriving DecidableEq

/-- Rust `Transaction` from `transaction.rs` (custom borsh: raw concatenation). -/
structure Transaction where
  message : Bytes
  signature : Signature
  pubkey : PublicKey
deriving DecidableEq

/-- Rust `Block` from `block.rs`. -/
structure Block where
  transactions : List Transaction
  certificate : QuorumCertificate
  last_blockhash : Signature
  view : Nat
deriving DecidableEq

/-- Rust `MessageType` from `message.rs`. -/
inductive MessageType where
  | Vote (v : PFHS.Vote)
  | NewView (nv : PFHS.NewView)
  | Block (b : PFHS.Block)
deriving DecidableEq

/-- Rust `SignedMessage` from `message.rs`. -/
structure SignedMessage where
  message_type : MessageType
  transmitter : PublicKey
  signature : Signature
deriving DecidableEq

/-- Borsh encoding of `Vote` (u64 view, then the custom `Signature` impl
which writes the raw signature bytes). -/
def borshVote (B : BLS) (v : Vote) : Bytes :=
  u64LE v.view ++ B.sig_bytes v.blockhash

/-- Borsh encoding of an `IndexSet<PublicKey>` via
`index_map_impl::serialize_index_set`: collected to a `Vec` and serialized
with a u32 length prefix; each `PublicKey` writes its raw bytes. -/
def borshSigners (B : BLS) (signers : List PublicKey) : Bytes :=
  u32LE signers.length ++ (signers.map B.pk_bytes).flatten

/-- Borsh encoding of `QC` (derived, field declaration order). -/
def borshQC (B : BLS) (qc : QC) : Bytes :=
  borshVote B qc.vote ++ B.sig_bytes qc.aggregated_signature
    ++ borshSigners B qc.signers ++ B.sig_bytes qc.signature
    ++ B.pk_bytes qc.producer

/-- Borsh encoding of `AggQC` (derived, field declaration order). -/
def borshAggQC (B : BLS) (a : AggQC) : Bytes :=
  u32LE a.qcs.length ++ (a.qcs.map (borshQC B)).flatten
    ++ B.sig_bytes a.aggregated_signature ++ borshSigners B a.signers
    ++ B.sig_bytes a.signature ++ B.pk_bytes a.producer

/-- Borsh encoding of `QuorumCertificate` (derived: enum tag + payload). -/
def borshQuorumCertificate (B : BLS) : QuorumCertificate → Bytes
  | QuorumCertificate.Happy qc => 0 :: borshQC B qc
  | QuorumCertificate.Sad a => 1 :: borshAggQC B a
  | QuorumCertificate.Genesis => [2]

/-- Custom borsh impl for `Transaction`: raw concatenation, no prefixes. -/
def borshTransaction (B : BLS) (t : Transaction) : Bytes :=
  t.message ++ B.sig_bytes t.signature ++ B.pk_bytes t.pubkey

/-- Borsh encoding of `Block` (derived, field declaration order). -/
def borshBlock (B : BLS) (b : Block) : Bytes :=
  u32LE b.transactions.length ++ (b.transactions.map (borshTransaction B)).flatten
    ++ borshQuorumCertificate B b.certificate ++ B.sig_bytes b.last_blockhash
    ++ u64LE b.view

/-- Borsh encoding of `MessageType` (derived: enum tag + payload). -/
def encodeMessageType (B : BLS) : MessageType → Bytes
  | MessageType.Vote v => 0 :: borshVote B v
  | MessageType.NewView nv =>
      1 :: (u64LE nv.view ++ borshQuorumCertificate B nv.certificate)
  | MessageType.Block b => 2 :: borshBlock B b

/-- Rust `QC::valid` from `certificates.rs` lines 113-173: supermajority check,
signers-in-quorum check, then multi-message verification of the aggregated
signature against, for each signer, that signer's public-key bytes followed
by the borsh encoding of `MessageType::Vote(vote)`. -/
def QC.valid (B : BLS) (self : QC) (quorum : List PublicKey) : Bool :=
  let is_supermajority := decide (self.signers.length > 2 * quorum.length / 3)
  let signers_in_quorum :=
    self.signers.all (fun signer => quorum.any (fun peer => decide (peer = signer)))
  let valid_aggregated_signature :=
    B.verify_messages self.aggregated_signature
      (self.signers.map (fun signer =>
        B.pk_bytes signer ++ encodeMessageType B (MessageType.Vote self.vote)))
      self.signers
  is_supermajority && signers_in_quorum && valid_aggregated_signature

/-- The high-QC scan shared (textually identical) by `AggQC::valid` and
`AggQC::find_high_qc`: walk `qcs` keeping the first QC whose `vote.view`
strictly exceeds the running maximum, which starts at 0. -/
def findHighAux : List QC → Option QC → Nat → Option QC
  | [], high_qc, _ => high_qc
  | qc :: rest, high_qc, high_qc_view =>
    if qc.vote.view > high_qc_view then findHighAux rest (some qc) qc.vote.view
    else findHighAux rest high_qc high_qc_view

/-- Rust `AggQC::find_high_qc` from `certificates.rs` lines 277-288. -/
def AggQC.find_high_qc (self : AggQC) : Option QC :=
  findHighAux self.qcs none 0

/-- Rust `AggQC::valid` from `certificates.rs` lines 194-275. The short-circuit
cascade is: supermajority, signers in quorum, high QC valid, aggregated
signature valid. The `high_qc.unwrap()` on line 228 panics when the scan
found no QC; this is the `none` result. The per-signer messages pair
`signers` and `qcs` positionally (`zip`), each message being the signer's
public-key bytes followed by the borsh `Vec<u8>` encoding of that QC's
aggregated-signature bytes. -/
def AggQC.valid (B : BLS) (self : AggQC) (quorum : List PublicKey) : Option Bool :=
  let is_supermajority := decide (self.signers.length > 2 * quorum.length / 3)
  let signers_in_quorum :=
    self.signers.all (fun signer => quorum.any (fun peer => decide (peer = signer)))
  if is_supermajority && signers_in_quorum then
    match self.find_high_qc with
    | none => none
    | some high_qc =>
      if high_qc.valid B quorum then
        some (B.verify_messages self.aggregated_signature
          ((self.signers.zip self.qcs).map (fun p =>
            B.pk_bytes p.1 ++ borshByteVec (B.sig_bytes p.2.aggregated_signature)))
          self.signers)
      else some false
  else some false

/-- Rust `QuorumCertificate::from_votes` from `certificates.rs` lines 32-55.
The `.expect` on aggregation is the `none` case. -/
def QuorumCertificate.from_votes (B : BLS) (vote : Vote)
    (vote_signatures : List Signature) (signers : List PublicKey)
    (signer : PrivateKey) : Option QuorumCertificate :=
  (B.aggregate vote_signatures).map (fun aggregated_signature =>
    QuorumCertificate.Happy {
      vote := vote
      aggregated_signature := aggregated_signature
      signers := signers
      signature := B.sign signer
        (B.pk_bytes (B.public_key signer)
          ++ borshByteVec (B.sig_bytes aggregated_signature))
      producer := B.public_key signer })

/-- Rust `QuorumCertificate::from_newviews` from `certificates.rs` lines 60-94.
`qcs` keeps only the QCs embedded in `Happy` certificates (`flat_map`);
`signers` is passed through unchanged. The `.expect` on aggregation is the
`none` case. -/
def QuorumCertificate.from_newviews (B : BLS) (etas : List NewView)
    (eta_signatures : List Signature) (signers : List PublicKey)
    (signer : PrivateKey) : Option QuorumCertificate :=
  let qcs := etas.filterMap (fun eta =>
    match eta.certificate with
    | QuorumCertificate.Happy qc => some qc
    | _ => none)
  (B.aggregate eta_signatures).map (fun new_view_aggregated_signature =>
    QuorumCertificate.Sad {
      qcs := qcs
      aggregated_signature := new_view_aggregated_signature
      signers := signers
      signature := B.sign signer
        (B.pk_bytes (B.public_key signer)
          ++ borshByteVec (B.sig_bytes new_view_aggregated_signature))
      producer := B.public_key signer })

/-- Rust `SignedMessage::verify` from `message.rs`. -/
def SignedMessage.verify (B : BLS) (self : SignedMessage) : Bool :=
  B.verify_messages self.signature
    [B.pk_bytes self.transmitter ++ encodeMessageType B self.message_type]
    [self.transmitter]

/-- Rust `SignedMessage::block` from `message.rs`. -/
def SignedMessage.block (B : BLS) (block : Block) (signer : PrivateKey) :
    SignedMessage :=
  let message_type := MessageType.Block block
  { message_type := message_type
    transmitter := B.public_key signer
    signature := B.sign signer
      (B.pk_bytes (B.public_key signer) ++ encodeMessageType B message_type) }

/-- Rust `SignedMessage::vote` from `message.rs`. -/
def SignedMessage.vote (B : BLS) (v : Vote) (signer : PrivateKey) :
    SignedMessage :=
  let message_type := MessageType.Vote v
  { message_type := message_type
    transmitter := B.public_key signer
    signature := B.sign signer
      (B.pk_bytes (B.public_key signer) ++ encodeMessageType B message_type) }

/-- Rust `View { height, leader, block, blockhash }` from `endpoint.rs`. -/
structure View where
  height : Nat
  leader : PublicKey
  block : Block
  blockhash : Signature
deriving DecidableEq

/-- Rust `Identity` from `endpoint.rs` (the display-only `name` string is
dropped). -/
structure Identity where
  private_key : PrivateKey
  public_key : PublicKey
  index : Nat
deriving DecidableEq

/-- Rust `Endpoint` state from `endpoint.rs`. The peer table keeps only the peer
public keys (the channels are the message-delivery environment, passed to
the step functions explicitly). `executed` is an added ghost log recording
every `execute` side effect, in call order. `recent_views` is a `VecDeque`
with its front at the list head. -/
structure Endpoint where
  identity : Identity
  peers : List PublicKey
  quorum : List PublicKey
  self_vote : Option SignedMessage
  current_view : Nat
  recent_views : List View
  executed : List View
deriving DecidableEq

/-- Rust `Primary` result enum from `endpoint.rs`. -/
inductive Primary where
  | OurTurn
  | Peer (pk : PublicKey)
deriving DecidableEq

/-- Rust `Endpoint::quorum_size` from `endpoint.rs` lines 154-157. -/
def Endpoint.quorum_size (self : Endpoint) : Nat :=
  self.peers.length + 1

/-- Rust `Endpoint::is_supermajority` from `endpoint.rs` lines 408-410. -/
def Endpoint.is_supermajority (self : Endpoint) (num : Nat) : Bool :=
  decide (num > 2 * self.quorum_size / 3)

/-- Rust `Endpoint::primary_for_view` from `endpoint.rs` lines 665-691. The Rust
zips `peers` with the infinite iterator `(0..).filter(|i| *i != index)`,
whose k-th element is `k` when `k < index` and `k + 1` otherwise; the
`unreachable!` fall-through is the `none` case. -/
def Endpoint.primary_for_view (self : Endpoint) (view : Nat) : Option Primary :=
  let primary_index := view % self.quorum_size
  if primary_index = self.identity.index then some Primary.OurTurn
  else
    let idxs := (List.range self.peers.length).map
      (fun k => if k < self.identity.index then k else k + 1)
    match (self.peers.zip idxs).find? (fun p => decide (p.2 = primary_index)) with
    | some p => some (Primary.Peer p.1)
    | none => none

/-- The genesis `last_blockhash` marker from `endpoint.rs` lines 384-389:
the all-zero private key (modelled as the handle `0`) signing the empty
message. -/
def genesis_signature (B : BLS) : Signature := B.sign 0 []

/-- The vote-tally seeding step opening `Endpoint::primary_logic`
(`endpoint.rs` lines 217-226): `self_vote.take()` empties the slot, and if
it held a `Vote` message that vote is inserted into the fresh
`votes_received` map (modelled as an association list) with its signature
and transmitter — with no check on the vote's view. -/
def Endpoint.seed_tally (self : Endpoint) :
    Endpoint × List (Vote × (List Signature × List PublicKey)) :=
  ({ self with self_vote := none },
   match self.self_vote with
   | some m =>
     match m.message_type with
     | MessageType.Vote vote => [(vote, ([m.signature], [m.transmitter]))]
     | _ => []
   | none => [])

/-- The proposal tail of `Endpoint::primary_logic` (`endpoint.rs` lines
375-405): build the block from the obtained certificate, sign it, push the
corresponding `View` onto the back of `recent_views`, and return the block
message that is broadcast. -/
def Endpoint.primary_propose (B : BLS) (self : Endpoint)
    (certificate : QuorumCertificate) : Endpoint × SignedMessage :=
  let block : Block :=
    { transactions := []
      certificate := certificate
      view := self.current_view
      last_blockhash :=
        ((self.recent_views.getLast?).map View.blockhash).getD
          (genesis_signature B) }
  let block_message := SignedMessage.block B block self.identity.private_key
  ({ self with
      recent_views := self.recent_views ++
        [{ height := self.current_view
           leader := self.identity.public_key
           block := block
           blockhash := block_message.signature }] },
   block_message)

/-- Rust `Endpoint::primary_logic` specialised to an endpoint with no peers
(the `f = 0` cluster). `self_vote.take()` empties the vote slot; in view 1
the certificate is `Genesis` and the block is proposed; in any later view
`next_message()` can never return a message because the peer list is empty,
so the collection loop exits only through the `TIMEOUT_MILLIS` timeout
return, leaving the state otherwise unchanged. -/
def Endpoint.primary_logic_no_peers (B : BLS) (self : Endpoint) : Endpoint :=
  let st := { self with self_vote := none }
  if st.current_view = 1 then (st.primary_propose B QuorumCertificate.Genesis).1
  else st

/-- Rust `Endpoint::start_consensus` (`endpoint.rs` lines 159-192) specialised
to an endpoint with no peers: for each view 1..=200 set `current_view`,
dispatch on `primary_for_view`, and run the primary logic when it is our
turn (with no peers the non-primary branch is unreachable and modelled as a
no-op). -/
def Endpoint.start_consensus_no_peers (B : BLS) (self : Endpoint) : Endpoint :=
  (List.range 200).foldl
    (fun st i =>
      let st := { st with current_view := i + 1 }
      match st.primary_for_view (i + 1) with
      | some Primary.OurTurn => st.primary_logic_no_peers B
      | _ => st)
    self

/-- Rust `pipeline_safe_block_qc` from `endpoint.rs` lines 732-741. -/
def pipeline_safe_block_qc (block : Block) (qc : QC) (current_view : Nat) :
    Bool :=
  decide (block.view ≥ current_view) && decide (block.view = qc.vote.view + 1)

/-- Rust `pipeline_safe_block_aggqc` from `endpoint.rs` lines 743-757. The Rust
`&&` short-circuits: when `block.view < current_view` the result is `false`
and the `find_high_qc().unwrap()` is never evaluated; otherwise a missing
high QC panics (`none`). -/
def pipeline_safe_block_aggqc (block : Block) (qc : AggQC)
    (current_view : Nat) : Option Bool :=
  if block.view ≥ current_view then
    match qc.find_high_qc with
    | none => none
    | some high_qc => some (decide (block.last_blockhash = high_qc.vote.blockhash))
  else some false

/-- The block-acceptance tail shared by the three certificate branches of
`Endpoint::nonprimary_logic` (`endpoint.rs` lines 446-488, 495-545,
552-602): sign a vote for `(current_view, block.last_blockhash)`, push the
`View` for the received block onto the back of `recent_views`
(`height = block.view`, `leader = transmitter`,
`blockhash = message signature`), and route the vote — stashed into
`self_vote` when the next view's primary is this endpoint, otherwise sent
over the channel (a pure send, no local state change). -/
def Endpoint.accept_block (B : BLS) (self : Endpoint) (block : Block)
    (message : SignedMessage) : Endpoint :=
  let signed_vote := SignedMessage.vote B
    { view := self.current_view, blockhash := block.last_blockhash }
    self.identity.private_key
  let st := { self with
    recent_views := self.recent_views ++
      [({ height := block.view
          leader := message.transmitter
          block := block
          blockhash := message.signature } : View)] }
  match st.primary_for_view (st.current_view + 1) with
  | some Primary.OurTurn => { st with self_vote := some signed_vote }
  | _ => st

/-- One iteration of the `receive_block_and_vote` loop of
`Endpoint::nonprimary_logic` (`endpoint.rs` lines 435-616) applied to a
message from the primary that already passed `verify`: `some` when the
block is accepted (vote dispatched, view appended), `none` when the message
is ignored and the loop keeps waiting. The Sad branch maps the (unreachable
once `aggqc.valid` returned `some true`) panic of the safety predicate to
`none` as well. -/
def Endpoint.nonprimary_accept (B : BLS) (self : Endpoint)
    (message : SignedMessage) : Option Endpoint :=
  match message.message_type with
  | MessageType.Block block =>
    match block.certificate with
    | QuorumCertificate.Genesis =>
      if self.current_view = 1 then some (self.accept_block B block message)
      else none
    | QuorumCertificate.Happy qc =>
      if qc.valid B self.quorum then
        if pipeline_safe_block_qc block qc self.current_view then
          some (self.accept_block B block message)
        else none
      else none
    | QuorumCertificate.Sad aggqc =>
      match aggqc.valid B self.quorum with
      | some true =>
        match pipeline_safe_block_aggqc block aggqc self.current_view with
        | some true => some (self.accept_block B block message)
        | _ => none
      | _ => none
  | _ => none

/-- The front-popping commit loop of `Endpoint::nonprimary_logic`
(`endpoint.rs` lines 645-657): pop views from the front, executing each, up
to and including the view whose blockhash matches the grandparent's.
Returns (remaining queue, executed views in order). -/
def commitPop : List View → Signature → List View × List View
  | [], _ => ([], [])
  | v :: rest, grandparent =>
    if v.blockhash = grandparent then (rest, [v])
    else
      let r := commitPop rest grandparent
      (r.1, v :: r.2)

/-- The three-chain commit rule of `Endpoint::nonprimary_logic`
(`endpoint.rs` lines 618-662), run after a successful vote: if the three
most recent views chain directly (latest extends parent, parent extends
grandparent), commit through the grandparent. -/
def Endpoint.commit_three_chain (self : Endpoint) : Endpoint :=
  match self.recent_views.reverse with
  | latest :: parent :: grandparent :: _ =>
    if latest.block.last_blockhash = parent.blockhash
        ∧ parent.block.last_blockhash = grandparent.blockhash then
      let r := commitPop self.recent_views grandparent.blockhash
      { self with recent_views := r.1, executed := self.executed ++ r.2 }
    else self
  | _ => self

/-- A full non-primary view step on one accepted-or-ignored primary
message: acceptance followed by the commit rule. -/
def Endpoint.nonprimary_step (B : BLS) (self : Endpoint)
    (message : SignedMessage) : Option Endpoint :=
  (self.nonprimary_accept B message).map Endpoint.commit_three_chain

/-- The `recent_views` height-monotonicity predicate from the spec:
heights are non-decreasing from front to back. -/
def heightsMonotonic : List View → Bool
  | [] => true
  | [_] => true
  | a :: b :: rest => decide (a.height ≤ b.height) && heightsMonotonic (b :: rest)

/-! ## Concrete oracle and fixtures used by witnesses and counterexamples -/

/-- A concrete executable BLS oracle: verification always succeeds,
aggregation sums, signing returns 0, key handles encode to singleton byte
lists. Used to evaluate the embedded operations at concrete inputs. -/
def oracle : BLS :=
  { verify_messages := fun _ _ _ => true
    aggregate := fun sigs => some (sigs.foldl (fun a b => a + b) 0)
    pk_bytes := fun pk => [pk]
    sig_bytes := fun s => [s]
    sign := fun _ _ => 0
    public_key := fun sk => sk }

/-- The `f = 0` endpoint produced by `setup_cluster(0)` /
`Endpoint::new_genesis`: a sole validator with index 0, no peers, quorum
containing only its own key, starting at view 0 with empty queues. -/
def singleEndpoint : Endpoint :=
  { identity := { private_key := 0, public_key := 0, index := 0 }
    peers := []
    quorum := [0]
    self_vote := none
    current_view := 0
    recent_views := []
    executed := [] }

/-! ## Supermajority arithmetic -/

/-- The integer-division supermajority test of the code agrees with the
rational comparison: `k > 2n/3` over `ℕ` division iff `2n < 3k`. -/
theorem supermajority_div_iff (n k : Nat) :
    (2 * n / 3 < k) ↔ 2 * n < 3 * k := by
  omega

/-- Membership phrasing of the signers-in-quorum loop. -/
theorem signers_in_quorum_iff (signers quorum : List PublicKey) :
    (signers.all (fun signer =>
      quorum.any (fun peer => decide (peer = signer))) = true)
    ↔ ∀ signer ∈ signers, signer ∈ quorum := by
  simp [List.all_eq_true, List.any_eq_true]

/-- C1: `QC::valid(quorum)` returns true iff the three sub-predicates hold:
the signer count strictly exceeds `2n/3` (as a rational comparison,
`2·|quorum| < 3·|signers|`), every signer is a quorum member, and the
multi-message BLS verification of the aggregated signature succeeds against
the per-signer messages `encode(signer) ‖ encode(MessageType::Vote(vote))`;
consequently falsifying any one sub-predicate falsifies `valid`. -/
theorem qc_valid_iff_subpredicates (B : BLS) (qc : QC)
    (quorum : List PublicKey) :
    qc.valid B quorum = true ↔
      (2 * quorum.length < 3 * qc.signers.length
       ∧ (∀ signer ∈ qc.signers, signer ∈ quorum)
       ∧ B.verify_messages qc.aggregated_signature
           (qc.signers.map (fun signer =>
             B.pk_bytes signer ++ encodeMessageType B (MessageType.Vote qc.vote)))
           qc.signers = true) := by
  unfold QC.valid
  simp only [Bool.and_eq_true, decide_eq_true_eq, gt_iff_lt]
  rw [supermajority_div_iff, signers_in_quorum_iff, and_assoc]

/-- An `f = 1` endpoint of the four-validator cluster: identity 0 with
peers 1, 2, 3. -/
def quadEndpoint : Endpoint :=
  { identity := { private_key := 0, public_key := 0, index := 0 }
    peers := [1, 2, 3]
    quorum := [0, 1, 2, 3]
    self_vote := none
    current_view := 1
    recent_views := []
    executed := [] }

/-- C9: `is_supermajority(k)` is true exactly when `k > 2n/3` as a rational
comparison (`2n < 3k`); in particular for `n = 4` iff `k ≥ 3`, for `n = 7`
iff `k ≥ 5`, for `n = 10` iff `k ≥ 7`, and for `n = 3f + 1` iff
`k ≥ 2f + 1`. -/
theorem is_supermajority_iff (e : Endpoint) (k : Nat) :
    (e.is_supermajority k = true ↔ 2 * e.quorum_size < 3 * k)
    ∧ (e.quorum_size = 4 → (e.is_supermajority k = true ↔ 3 ≤ k))
    ∧ (e.quorum_size = 7 → (e.is_supermajority k = true ↔ 5 ≤ k))
    ∧ (e.quorum_size = 10 → (e.is_supermajority k = true ↔ 7 ≤ k))
    ∧ (∀ f, e.quorum_size = 3 * f + 1 →
        (e.is_supermajority k = true ↔ 2 * f + 1 ≤ k)) := by
  have main : e.is_supermajority k = true ↔ 2 * e.quorum_size < 3 * k := by
    unfold Endpoint.is_supermajority
    simp only [decide_eq_true_eq, gt_iff_lt]
    exact supermajority_div_iff e.quorum_size k
  refine ⟨main, ?_, ?_, ?_, ?_⟩
  · intro h; rw [main, h]; omega
  · intro h; rw [main, h]; omega
  · intro h; rw [main, h]; omega
  · intro f h; rw [main, h]; omega

/-- C9 witness: at the four-validator endpoint, `is_supermajority 3` holds,
obtained from the theorem with the `n = 4` hypothesis discharged. -/
theorem is_supermajority_iff_witness : quadEndpoint.is_supermajority 3 = true :=
  ((is_supermajority_iff quadEndpoint 3).2.1 (by decide)).mpr (by decide)

/-- C10: leader selection is periodic with period `n`:
`primary_for_view(v) = primary_for_view(v + n)`, since both reduce the view
modulo the quorum size before selecting by index. -/
theorem primary_for_view_periodic (e : Endpoint) (v : Nat) :
    e.primary_for_view v = e.primary_for_view (v + e.quorum_size) := by
  simp only [Endpoint.primary_for_view, Endpoint.quorum_size,
    Nat.add_mod_right]

/-! ## The high-QC scan -/

/-- The scan never discards an already-found QC. -/
theorem findHighAux_some_ne_none (l : List QC) :
    ∀ q hv, findHighAux l (some q) hv ≠ none := by
  induction l with
  | nil => intro q hv h; exact Option.noConfusion h
  | cons qc rest ih =>
    intro q hv
    unfold findHighAux
    by_cases h : qc.vote.view > hv
    · simp only [h, if_pos]; exact ih qc qc.vote.view
    · simp only [h, if_neg, not_false_iff]; exact ih q hv

/-- Starting from no candidate, the scan yields `none` exactly when every
view in the list is at most the running threshold. -/
theorem findHighAux_none_iff (l : List QC) :
    ∀ hv, findHighAux l none hv = none ↔ ∀ qc ∈ l, qc.vote.view ≤ hv := by
  induction l with
  | nil => intro hv; simp [findHighAux]
  | cons qc rest ih =>
    intro hv
    unfold findHighAux
    by_cases h : qc.vote.view > hv
    · simp only [h, if_pos]
      constructor
      · intro hcontra
        exact absurd hcontra (findHighAux_some_ne_none rest qc qc.vote.view)
      · intro hall
        exact absurd (hall qc (List.mem_cons_self qc rest)) (by omega)
    · simp only [h, if_neg, not_false_iff, ih]
      constructor
      · intro hall q hq
        rcases List.mem_cons.mp hq with rfl | hmem
        · omega
        · exact hall q hmem
      · intro hall q hq
        exact hall q (List.mem_cons_of_mem qc hq)

/-- The view of the scan's result is at least the running threshold,
provided the threshold is a lower bound for any carried candidate. -/
theorem findHighAux_lower (l : List QC) :
    ∀ hq hv h, (∀ q, hq = some q → hv ≤ q.vote.view) →
      findHighAux l hq hv = some h → hv ≤ h.vote.view := by
  induction l with
  | nil =>
    intro hq hv h hinv heq
    exact hinv h heq
  | cons qc rest ih =>
    intro hq hv h hinv heq
    unfold findHighAux at heq
    by_cases hgt : qc.vote.view > hv
    · simp only [hgt, if_pos] at heq
      have := ih (some qc) qc.vote.view h (by intro q hq'; cases hq'; exact le_refl _) heq
      omega
    · simp only [hgt, if_neg, not_false_iff] at heq
      exact ih hq hv h hinv heq

/-- The scan's result is an element of the list or the carried candidate. -/
theorem findHighAux_mem (l : List QC) :
    ∀ hq hv h, findHighAux l hq hv = some h → h ∈ l ∨ hq = some h := by
  induction l with
  | nil => intro hq hv h heq; exact Or.inr heq
  | cons qc rest ih =>
    intro hq hv h heq
    unfold findHighAux at heq
    by_cases hgt : qc.vote.view > hv
    · simp only [hgt, if_pos] at heq
      rcases ih (some qc) qc.vote.view h heq with hmem | hsome
      · exact Or.inl (List.mem_cons_of_mem qc hmem)
      · cases hsome; exact Or.inl (List.mem_cons_self qc rest)
    · simp only [hgt, if_neg, not_false_iff] at heq
      rcases ih hq hv h heq with hmem | hsome
      · exact Or.inl (List.mem_cons_of_mem qc hmem)
      · exact Or.inr hsome

/-- The scan's result dominates the view of every list element. -/
theorem findHighAux_upper (l : List QC) :
    ∀ hq hv h, (∀ q, hq = some q → hv ≤ q.vote.view) →
      findHighAux l hq hv = some h →
      ∀ qc ∈ l, qc.vote.view ≤ h.vote.view := by
  induction l with
  | nil => intro hq hv h _ _ qc hqc; exact absurd hqc (List.not_mem_nil qc)
  | cons qc rest ih =>
    intro hq hv h hinv heq q hq'
    unfold findHighAux at heq
    by_cases hgt : qc.vote.view > hv
    · simp only [hgt, if_pos] at heq
      have hlow := findHighAux_lower rest (some qc) qc.vote.view h
        (by intro x hx; cases hx; exact le_refl _) heq
      rcases List.mem_cons.mp hq' with rfl | hmem
      · exact hlow
      · exact ih (some qc) qc.vote.view h
          (by intro x hx; cases hx; exact le_refl _) heq q hmem
    · simp only [hgt, if_neg, not_false_iff] at heq
      have hlow := findHighAux_lower rest hq hv h hinv heq
      rcases List.mem_cons.mp hq' with rfl | hmem
      · omega
      · exact ih hq hv h hinv heq q hmem

/-- A QC for view 3 signed by validators 1, 2, 3. -/
def oneQC : QC :=
  { vote := { view := 3, blockhash := 7 }
    aggregated_signature := 1
    signers := [1, 2, 3]
    signature := 0
    producer := 1 }

/-- A QC for view 1 signed by validators 1, 2, 3. -/
def twoQC : QC :=
  { vote := { view := 1, blockhash := 5 }
    aggregated_signature := 2
    signers := [1, 2, 3]
    signature := 0
    producer := 2 }

/-- A sad certificate embedding `twoQC` and `oneQC`; its high QC is
`oneQC` (view 3). -/
def sadAggQC : AggQC :=
  { qcs := [twoQC, oneQC]
    aggregated_signature := 2
    signers := [1, 2, 3]
    signature := 0
    producer := 1 }

/-- C2: when the embedded high QC exists, `AggQC::valid(quorum)` returns
true iff the four conditions hold: supermajority (`2n < 3·|signers|` as a
rational comparison), signers in quorum, the high QC itself valid, and
multi-message BLS verification of the aggregated signature against the
positionally paired per-signer messages
`encode(signer_i) ‖ encode(qcs[i].aggregated_signature bytes)`. -/
theorem aggqc_valid_iff_subpredicates (B : BLS) (a : AggQC)
    (quorum : List PublicKey) (hqc : QC)
    (hfind : a.find_high_qc = some hqc) :
    a.valid B quorum = some true ↔
      (2 * quorum.length < 3 * a.signers.length
       ∧ (∀ signer ∈ a.signers, signer ∈ quorum)
       ∧ hqc.valid B quorum = true
       ∧ B.verify_messages a.aggregated_signature
           ((a.signers.zip a.qcs).map (fun p =>
             B.pk_bytes p.1 ++ borshByteVec (B.sig_bytes p.2.aggregated_signature)))
           a.signers = true) := by
  have hguard : (decide (a.signers.length > 2 * quorum.length / 3)
      && a.signers.all (fun signer =>
        quorum.any (fun peer => decide (peer = signer)))) = true
      ↔ (2 * quorum.length < 3 * a.signers.length
         ∧ ∀ signer ∈ a.signers, signer ∈ quorum) := by
    simp only [Bool.and_eq_true, decide_eq_true_eq, gt_iff_lt]
    rw [supermajority_div_iff, signers_in_quorum_iff]
  unfold AggQC.valid
  rw [hfind]
  by_cases hg : (decide (a.signers.length > 2 * quorum.length / 3)
      && a.signers.all (fun signer =>
        quorum.any (fun peer => decide (peer = signer)))) = true
  · rw [if_pos hg]
    dsimp only
    by_cases hv : hqc.valid B quorum = true
    · rw [if_pos hv]
      constructor
      · intro hx
        obtain ⟨h1, h2⟩ := hguard.mp hg
        exact ⟨h1, h2, hv, Option.some_inj.mp hx⟩
      · intro hx
        exact congrArg some hx.2.2.2
    · rw [if_neg hv]
      constructor
      · intro hx
        exact Bool.noConfusion (Option.some_inj.mp hx)
      · intro hx
        exact absurd hx.2.2.1 hv
  · rw [if_neg hg]
    constructor
    · intro hx
      exact Bool.noConfusion (Option.some_inj.mp hx)
    · intro hx
      exact absurd (hguard.mpr ⟨hx.1, hx.2.1⟩) hg

/-- C2 witness: the concrete sad certificate validates against the quorum
{1, 2, 3}, via the theorem with the high-QC hypothesis and all four
sub-predicates discharged by evaluation. -/
theorem aggqc_valid_iff_subpredicates_witness :
    sadAggQC.valid oracle [1, 2, 3] = some true :=
  (aggqc_valid_iff_subpredicates oracle sadAggQC [1, 2, 3] oneQC
    (by decide)).mpr (by decide)

/-- An AggQC whose only embedded QC carries a vote for view 0. -/
def zeroViewAggQC : AggQC :=
  { qcs := [{ vote := { view := 0, blockhash := 0 }
              aggregated_signature := 0
              signers := [0]
              signature := 0
              producer := 0 }]
    aggregated_signature := 0
    signers := [0, 1, 2]
    signature := 0
    producer := 0 }

/-- C4 counterexample: `find_high_qc` can return `none` on a nonempty `qcs`
list — the scan's running maximum starts at 0 and only strictly larger
views are taken, so a certificate whose embedded votes all have view 0
yields `none`, refuting "returns none exactly when qcs is empty". -/
theorem find_high_qc_none_on_nonempty :
    zeroViewAggQC.find_high_qc = none ∧ zeroViewAggQC.qcs ≠ [] := by
  decide

/-- C4 (amended): `find_high_qc` returns `none` exactly when every embedded
QC has `vote.view = 0` (in particular when `qcs` is empty); when it returns
a QC, that QC is an element of `qcs` whose `vote.view` dominates the views
of all embedded QCs. -/
theorem find_high_qc_characterisation (a : AggQC) :
    (a.find_high_qc = none ↔ ∀ qc ∈ a.qcs, qc.vote.view = 0)
    ∧ (∀ hqc, a.find_high_qc = some hqc →
        hqc ∈ a.qcs ∧ ∀ qc ∈ a.qcs, qc.vote.view ≤ hqc.vote.view) := by
  constructor
  · rw [AggQC.find_high_qc, findHighAux_none_iff]
    simp [Nat.le_zero]
  · intro hqc heq
    have heq' : findHighAux a.qcs none 0 = some hqc := heq
    rcases findHighAux_mem a.qcs none 0 hqc heq' with hmem | hnone
    · exact ⟨hmem, findHighAux_upper a.qcs none 0 hqc
        (fun q hq => Option.noConfusion hq) heq'⟩
    · exact Option.noConfusion hnone

/-- C4 witness: at the concrete sad certificate, the characterisation's
`some` branch applies with `oneQC` as the returned high QC. -/
theorem find_high_qc_characterisation_witness :
    oneQC ∈ sadAggQC.qcs
    ∧ ∀ qc ∈ sadAggQC.qcs, qc.vote.view ≤ oneQC.vote.view :=
  (find_high_qc_characterisation sadAggQC).2 oneQC (by decide)

/-! ## from_newviews -/

/-- A NewView carrying a `Genesis` certificate. -/
def genesisNewView : NewView :=
  { view := 1, certificate := QuorumCertificate.Genesis }

/-- A NewView carrying a `Happy` certificate embedding `oneQC`. -/
def happyNewView : NewView :=
  { view := 4, certificate := QuorumCertificate.Happy oneQC }

/-- Projects the signer count and embedded-QC count out of a `Sad`
certificate. -/
def sadLens : Option QuorumCertificate → Option (Nat × Nat)
  | some (QuorumCertificate.Sad a) => some (a.signers.length, a.qcs.length)
  | _ => none

/-- C3 counterexample: `from_newviews` applied to a single NewView carrying
a `Genesis` certificate, with a one-element signer set, produces a
`Sad(AggQC)` with one signer but zero embedded QCs — the Genesis eta is
dropped from `qcs` while `signers` is passed through unchanged, so
`signers.len() == qcs.len()` fails. -/
theorem from_newviews_length_mismatch :
    sadLens (QuorumCertificate.from_newviews oracle [genesisNewView] [5] [7] 0)
      = some (1, 0)
    ∧ (1 : Nat) ≠ 0 := by
  decide

/-- When every eta carries a `Happy` certificate, the certificate
extraction is exactly the per-eta embedded QC. -/
theorem filterMap_happy_of_all_happy (etas : List NewView)
    (hhappy : ∀ eta ∈ etas,
      ∃ qc, eta.certificate = QuorumCertificate.Happy qc) :
    (etas.filterMap (fun eta =>
      match eta.certificate with
      | QuorumCertificate.Happy qc => some qc
      | _ => none)).map QuorumCertificate.Happy
      = etas.map NewView.certificate := by
  induction etas with
  | nil => rfl
  | cons eta rest ih =>
    obtain ⟨qc, hqc⟩ := hhappy eta (List.mem_cons_self eta rest)
    simp only [List.filterMap_cons, hqc, List.map_cons]
    exact congrArg (QuorumCertificate.Happy qc :: ·)
      (ih (fun e he => hhappy e (List.mem_cons_of_mem eta he)))

/-- C3 (amended): when every input NewView carries a `Happy` certificate,
the produced `Sad(AggQC)` keeps the signer set unchanged and its `qcs` are
positionally the QCs embedded in the etas; in particular
`signers.len() == qcs.len()` holds whenever the caller supplied one signer
per eta. NewViews carrying `Sad` or `Genesis` are dropped from `qcs`, so
the unconditional claim fails (see the counterexample). -/
theorem from_newviews_happy_correspondence (B : BLS) (etas : List NewView)
    (eta_signatures : List Signature) (signers : List PublicKey)
    (signer : PrivateKey) (a : AggQC)
    (hhappy : ∀ eta ∈ etas,
      ∃ qc, eta.certificate = QuorumCertificate.Happy qc)
    (hres : QuorumCertificate.from_newviews B etas eta_signatures signers signer
      = some (QuorumCertificate.Sad a)) :
    a.signers = signers
    ∧ a.qcs.map QuorumCertificate.Happy = etas.map NewView.certificate
    ∧ (signers.length = etas.length → a.signers.length = a.qcs.length) := by
  unfold QuorumCertificate.from_newviews at hres
  cases hagg : B.aggregate eta_signatures with
  | none => rw [hagg] at hres; exact Option.noConfusion hres
  | some agg =>
    rw [hagg] at hres
    simp only [Option.map_some, Option.some_inj] at hres
    cases hres
    refine ⟨rfl, filterMap_happy_of_all_happy etas hhappy, ?_⟩
    intro hlen
    have := congrArg List.length (filterMap_happy_of_all_happy etas hhappy)
    simp only [List.length_map] at this
    simpa [this] using hlen

/-- The `Sad` payload `from_newviews` produces at the concrete witness
input below. -/
def witnessAggQC : AggQC :=
  { qcs := [oneQC]
    aggregated_signature := 5
    signers := [9]
    signature := 0
    producer := 0 }

/-- C3 witness: at one all-Happy eta with one signer, the amended theorem
applies and yields the positional correspondence. -/
theorem from_newviews_happy_correspondence_witness :
    witnessAggQC.signers = [9]
    ∧ witnessAggQC.qcs.map QuorumCertificate.Happy
        = [happyNewView].map NewView.certificate
    ∧ (([9] : List PublicKey).length = [happyNewView].length →
        witnessAggQC.signers.length = witnessAggQC.qcs.length) :=
  from_newviews_happy_correspondence oracle [happyNewView] [5] [9] 0
    witnessAggQC
    (fun eta he => ⟨oneQC, by rw [List.mem_singleton.mp he]; rfl⟩)
    (by decide)

/-! ## Panic behaviour on missing high QCs -/

/-- An AggQC with an empty `qcs` list and three signers. -/
def emptySadAggQC : AggQC :=
  { qcs := []
    aggregated_signature := 0
    signers := [0, 1, 2]
    signature := 0
    producer := 0 }

/-- A block whose view (1) is below the current view used in the
counterexample (2). -/
def staleBlock : Block :=
  { transactions := []
    certificate := QuorumCertificate.Genesis
    last_blockhash := 0
    view := 1 }

/-- A block whose view equals the current view used in the witness. -/
def freshBlock : Block :=
  { transactions := []
    certificate := QuorumCertificate.Genesis
    last_blockhash := 0
    view := 2 }

/-- C5 counterexample: `pipeline_safe_block_aggqc` does not panic for
*every* block when `find_high_qc()` is `none` — the Rust `&&`
short-circuits on `block.view >= current_view`, so a stale block returns
`false` without ever unwrapping the missing high QC. -/
theorem pipeline_safe_block_aggqc_stale_no_panic :
    emptySadAggQC.find_high_qc = none
    ∧ pipeline_safe_block_aggqc staleBlock emptySadAggQC 2 = some false := by
  decide

/-- C5 (amended): `AggQC::valid` panics (the `none` result) on an AggQC
whose `qcs` list is empty once the signer count exceeds `2n/3` and all
signers are quorum members; and `pipeline_safe_block_aggqc` panics when the
high QC is missing provided `block.view ≥ current_view` — for a stale block
it instead returns `false` by short-circuit. -/
theorem aggqc_missing_high_qc_panics (B : BLS) (a : AggQC)
    (quorum : List PublicKey) (blk : Block) (current_view : Nat)
    (hq : a.qcs = [])
    (hsup : 2 * quorum.length < 3 * a.signers.length)
    (hin : ∀ signer ∈ a.signers, signer ∈ quorum) :
    a.valid B quorum = none
    ∧ (current_view ≤ blk.view →
        pipeline_safe_block_aggqc blk a current_view = none) := by
  have hfind : a.find_high_qc = none := by
    rw [AggQC.find_high_qc, hq]; rfl
  constructor
  · have hg : (decide (a.signers.length > 2 * quorum.length / 3)
        && a.signers.all (fun signer =>
          quorum.any (fun peer => decide (peer = signer)))) = true := by
      rw [Bool.and_eq_true, decide_eq_true_eq, gt_iff_lt,
        supermajority_div_iff, signers_in_quorum_iff]
      exact ⟨hsup, hin⟩
    unfold AggQC.valid
    rw [if_pos hg, hfind]
  · intro hview
    unfold pipeline_safe_block_aggqc
    rw [if_pos hview, hfind]

/-- C5 witness: the empty-qcs certificate with a fresh block at the quorum
{0, 1, 2} hits both panic conclusions, hypotheses discharged by
evaluation. -/
theorem aggqc_missing_high_qc_panics_witness :
    emptySadAggQC.valid oracle [0, 1, 2] = none
    ∧ (2 ≤ freshBlock.view →
        pipeline_safe_block_aggqc freshBlock emptySadAggQC 2 = none) :=
  aggqc_missing_high_qc_panics oracle emptySadAggQC [0, 1, 2] freshBlock 2
    (by decide) (by decide) (by decide)

/-! ## The f = 0 (single validator) run -/

/-- The no-peer primary logic never calls `execute`: the ghost commit log
is untouched. -/
theorem primary_logic_no_peers_executed (B : BLS) (e : Endpoint) :
    (e.primary_logic_no_peers B).executed = e.executed := by
  unfold Endpoint.primary_logic_no_peers Endpoint.primary_propose
  dsimp only
  split <;> rfl

/-- The full 200-view no-peer run never calls `execute`. -/
theorem start_consensus_no_peers_executed (B : BLS) (e : Endpoint) :
    (e.start_consensus_no_peers B).executed = e.executed := by
  unfold Endpoint.start_consensus_no_peers
  generalize List.range 200 = l
  induction l generalizing e with
  | nil => rfl
  | cons i rest ih =>
    rw [List.foldl_cons, ih]
    dsimp only
    cases hp : Endpoint.primary_for_view { e with current_view := i + 1 } (i + 1) with
    | none => simp [hp]
    | some p =>
      cases p with
      | OurTurn => simp [hp, primary_logic_no_peers_executed]
      | Peer pk => simp [hp]

/-- C6 counterexample: running all 200 views of the single-validator
cluster commits nothing — the commit (`execute`) side effect lives only in
the non-primary logic, which the sole validator (always primary) never
runs; the claimed commit log of heights 1..198 is refuted. -/
theorem single_validator_run_commits_nothing :
    (singleEndpoint.start_consensus_no_peers oracle).executed = []
    ∧ (singleEndpoint.start_consensus_no_peers oracle).executed.map View.height
        ≠ (List.range 198).map (fun i => i + 1) := by
  constructor
  · exact start_consensus_no_peers_executed oracle singleEndpoint
  · rw [start_consensus_no_peers_executed oracle singleEndpoint]
    decide

/-- C6 (amended): with `f = 0` the sole validator is the leader of every
view, but `start_consensus` commits no block at all: the only proposal is
the view-1 Genesis block (the final `recent_views` holds exactly the
height-1 view), every later view times out waiting for votes that nobody
sends, and the execute step is never reached. -/
theorem single_validator_always_leader_no_commit :
    (∀ v : Nat, singleEndpoint.primary_for_view v = some Primary.OurTurn)
    ∧ (∀ B : BLS, (singleEndpoint.start_consensus_no_peers B).executed = [])
    ∧ (singleEndpoint.start_consensus_no_peers oracle).recent_views.map
        View.height = [1] := by
  refine ⟨?_, ?_, ?_⟩
  · intro v
    simp [Endpoint.primary_for_view, Endpoint.quorum_size, singleEndpoint,
      Nat.mod_one]
  · intro B
    exact start_consensus_no_peers_executed B singleEndpoint
  · decide

/-! ## recent_views monotonicity -/

/-- A Byzantine view-1 primary's proposal: a Genesis-certified block whose
`view` field is 500. -/
def byzantineGenesisBlock : Block :=
  { transactions := []
    certificate := QuorumCertificate.Genesis
    last_blockhash := 9
    view := 500 }

/-- The signed message carrying the Byzantine Genesis block, from peer 1
(the leader of view 1 in the four-validator cluster). -/
def byzantineGenesisMsg : SignedMessage :=
  { message_type := MessageType.Block byzantineGenesisBlock
    transmitter := 1
    signature := 100 }

/-- A QC for view 1 as honest validators would produce after voting on the
view-1 proposal. -/
def viewTwoQC : QC :=
  { vote := { view := 1, blockhash := 9 }
    aggregated_signature := 3
    signers := [1, 2, 3]
    signature := 0
    producer := 2 }

/-- The honest view-2 proposal carrying that QC. -/
def viewTwoBlock : Block :=
  { transactions := []
    certificate := QuorumCertificate.Happy viewTwoQC
    last_blockhash := 100
    view := 2 }

/-- The signed message carrying the view-2 block, from peer 2 (the leader
of view 2). -/
def viewTwoMsg : SignedMessage :=
  { message_type := MessageType.Block viewTwoBlock
    transmitter := 2
    signature := 101 }

/-- Two consecutive non-primary view steps of validator 0: the Byzantine
Genesis block in view 1, then the honest QC-certified block in view 2. -/
def byzantineRun : Option Endpoint :=
  (quadEndpoint.nonprimary_step oracle byzantineGenesisMsg).bind
    (fun e => Endpoint.nonprimary_step oracle
      { e with current_view := 2 } viewTwoMsg)

/-- C7 counterexample: under a Byzantine message sequence `recent_views`
is not height-monotonic — the Genesis branch appends `height = block.view`
with no check against the current view, so a Byzantine view-1 primary
proposing a Genesis block with `view = 500` followed by an honest view-2
acceptance leaves the queue at heights `[500, 2]`. -/
theorem recent_views_nonmonotonic_byzantine :
    byzantineRun.map (fun e =>
      (e.recent_views.map View.height, heightsMonotonic e.recent_views))
      = some ([500, 2], false) := by
  decide

/-- Appending a view whose height dominates the queue preserves
monotonicity. -/
theorem heightsMonotonic_append (l : List View) (v : View) :
    heightsMonotonic l = true → (∀ u ∈ l, u.height ≤ v.height) →
      heightsMonotonic (l ++ [v]) = true := by
  induction l with
  | nil => intro _ _; rfl
  | cons a rest ih =>
    intro hm hb
    cases rest with
    | nil =>
      have ha : a.height ≤ v.height := hb a (List.mem_cons_self a [])
      simp [heightsMonotonic, ha]
    | cons b t =>
      simp only [heightsMonotonic, Bool.and_eq_true, decide_eq_true_eq] at hm
      rw [List.cons_append]
      simp only [heightsMonotonic, List.cons_append, Bool.and_eq_true,
        decide_eq_true_eq]
      exact ⟨hm.1, ih hm.2 (fun u hu => hb u (List.mem_cons_of_mem a hu))⟩

/-- The function `accept_block` appends exactly the received block's view record,
whichever way the vote is routed. -/
theorem accept_block_recent_views (B : BLS) (e : Endpoint) (block : Block)
    (message : SignedMessage) :
    (e.accept_block B block message).recent_views
      = e.recent_views ++
        [{ height := block.view
           leader := message.transmitter
           block := block
           blockhash := message.signature }] := by
  unfold Endpoint.accept_block
  dsimp only
  split <;> rfl

/-- The function `primary_propose` appends exactly the height-`current_view` record. -/
theorem primary_propose_recent_views (B : BLS) (e : Endpoint)
    (cert : QuorumCertificate) :
    ((e.primary_propose B cert).1).recent_views
      = e.recent_views ++
        [{ height := e.current_view
           leader := e.identity.public_key
           block := { transactions := []
                      certificate := cert
                      view := e.current_view
                      last_blockhash :=
                        ((e.recent_views.getLast?).map View.blockhash).getD
                          (genesis_signature B) }
           blockhash := (SignedMessage.block B
             { transactions := []
               certificate := cert
               view := e.current_view
               last_blockhash :=
                 ((e.recent_views.getLast?).map View.blockhash).getD
                   (genesis_signature B) }
             e.identity.private_key).signature }] := rfl

/-- C7 (amended): height-monotonicity of `recent_views` is preserved by the
appends of `primary_logic` (which append height `current_view`) and by the
Happy/Sad-branch appends of `nonprimary_logic` (whose safety predicates
force `block.view ≥ current_view`), whenever the queued heights are bounded
by the current view; the Genesis branch appends `block.view` unchecked and
is exactly the Byzantine escape shown by the counterexample. -/
theorem recent_views_monotonic_appends (B : BLS) (e : Endpoint)
    (hmono : heightsMonotonic e.recent_views = true)
    (hbound : ∀ u ∈ e.recent_views, u.height ≤ e.current_view) :
    (∀ cert, heightsMonotonic
      ((e.primary_propose B cert).1.recent_views) = true)
    ∧ (∀ msg block e2, msg.message_type = MessageType.Block block →
        block.certificate ≠ QuorumCertificate.Genesis →
        e.nonprimary_accept B msg = some e2 →
        heightsMonotonic e2.recent_views = true) := by
  constructor
  · intro cert
    rw [primary_propose_recent_views]
    exact heightsMonotonic_append _ _ hmono hbound
  · intro msg block e2 hmsg hng hacc
    unfold Endpoint.nonprimary_accept at hacc
    rw [hmsg] at hacc
    dsimp only at hacc
    have haccept : ∀ hview : e.current_view ≤ block.view,
        e2 = e.accept_block B block msg →
        heightsMonotonic e2.recent_views = true := by
      intro hview he2
      rw [he2, accept_block_recent_views]
      exact heightsMonotonic_append _ _ hmono
        (fun u hu => le_trans (hbound u hu) hview)
    cases hcert : block.certificate with
    | Genesis => exact absurd hcert hng
    | Happy qc =>
      rw [hcert] at hacc
      dsimp only at hacc
      by_cases hv : qc.valid B e.quorum = true
      · rw [if_pos hv] at hacc
        by_cases hs : pipeline_safe_block_qc block qc e.current_view = true
        · rw [if_pos hs] at hacc
          have hview : e.current_view ≤ block.view := by
            unfold pipeline_safe_block_qc at hs
            simp only [Bool.and_eq_true, decide_eq_true_eq, ge_iff_le] at hs
            exact hs.1
          exact haccept hview (Option.some_inj.mp hacc).symm
        · rw [if_neg hs] at hacc
          exact Option.noConfusion hacc
      · rw [if_neg hv] at hacc
        exact Option.noConfusion hacc
    | Sad aggqc =>
      rw [hcert] at hacc
      dsimp only at hacc
      cases hav : aggqc.valid B e.quorum with
      | none =>
        rw [hav] at hacc
        exact Option.noConfusion hacc
      | some bv =>
        rw [hav] at hacc
        cases bv with
        | false => exact Option.noConfusion hacc
        | true =>
          cases hps : pipeline_safe_block_aggqc block aggqc e.current_view with
          | none =>
            rw [hps] at hacc
            exact Option.noConfusion hacc
          | some bs =>
            rw [hps] at hacc
            cases bs with
            | false => exact Option.noConfusion hacc
            | true =>
              have hview : e.current_view ≤ block.view := by
                by_cases hvw : e.current_view ≤ block.view
                · exact hvw
                · unfold pipeline_safe_block_aggqc at hps
                  rw [if_neg (by omega : ¬ block.view ≥ e.current_view)] at hps
                  exact absurd (Option.some_inj.mp hps) Bool.noConfusion
              exact haccept hview (Option.some_inj.mp hacc).symm

/-- C7 witness: at the four-validator endpoint with an empty queue, the
amended preservation applies to a Genesis proposal append. -/
theorem recent_views_monotonic_appends_witness :
    heightsMonotonic
      ((quadEndpoint.primary_propose oracle QuorumCertificate.Genesis).1.recent_views)
      = true :=
  (recent_views_monotonic_appends oracle quadEndpoint (by decide) (by decide)).1
    QuorumCertificate.Genesis

/-! ## Vote-tally seeding -/

/-- An endpoint at view 5 whose `self_vote` slot holds a stashed vote for
view 42. -/
def staleVoteEndpoint : Endpoint :=
  { identity := { private_key := 0, public_key := 0, index := 0 }
    peers := [1, 2, 3]
    quorum := [0, 1, 2, 3]
    self_vote := some
      { message_type := MessageType.Vote { view := 42, blockhash := 9 }
        transmitter := 3
        signature := 7 }
    current_view := 5
    recent_views := []
    executed := [] }

/-- C8 counterexample: `primary_logic` seeds the tally with a stashed Vote
without checking its view — at current view 5, a stashed vote for view 42
(not `v - 1 = 4`) still seeds `votes_received`, refuting "a stashed Vote
for any other view does not seed the tally". -/
theorem seed_tally_stale_vote_seeds :
    (staleVoteEndpoint.seed_tally).2
      = [({ view := 42, blockhash := 9 }, ([7], [3]))]
    ∧ staleVoteEndpoint.current_view = 5
    ∧ (42 : Nat) ≠ 5 - 1 := by
  decide

/-- C8 (amended): whenever `self_vote` holds a Vote message, `primary_logic`
seeds the tally with that vote, its signature and its transmitter, and
empties the slot — unconditionally, with no comparison of the vote's view
against `current_view - 1`. -/
theorem seed_tally_unconditional (e : Endpoint) (vote : Vote)
    (tx : PublicKey) (sig : Signature)
    (h : e.self_vote = some
      { message_type := MessageType.Vote vote
        transmitter := tx
        signature := sig }) :
    e.seed_tally = ({ e with self_vote := none }, [(vote, ([sig], [tx]))]) := by
  unfold Endpoint.seed_tally
  rw [h]

/-- C8 witness: the amended seeding theorem applied at the stale-vote
endpoint. -/
theorem seed_tally_unconditional_witness :
    staleVoteEndpoint.seed_tally
      = ({ staleVoteEndpoint with self_vote := none },
         [({ view := 42, blockhash := 9 }, ([7], [3]))]) :=
  seed_tally_unconditional staleVoteEndpoint { view := 42, blockhash := 9 } 3 7
    (by decide)

end PFHS
